import Mathlib

/-
Verification of the dotconfig repository: resolution of configuration
directories and files (Dir and File), their candidate-path generators
(list / listWithXDG / listWithNoXDG / listHome and the fileConfig
variants), and the path utilities from Go's path/filepath package that
they call (Clean, Join, Base, Ext), modelled for the Unix build where
the path separator is the slash character.

The substitutable package-level lookups (xdgConfigHome, userHomeDir,
dirExists, checkFile) are modelled as the fields of an Env record; a
fixed Env corresponds to one fixed assignment of those function
variables.
-/

set_option maxHeartbeats 1000000

namespace Dotconfig

/-! ## Go path/filepath primitives (Unix separator) -/

/-- Split a character list into the slash-separated segments, keeping
empty segments, exactly as splitting a Go path string on the slash
separator does.  `acc` holds the characters of the current segment in
reverse order. -/
def splitSegs : List Char → List Char → List (List Char)
  | [], acc => [acc.reverse]
  | c :: cs, acc =>
    if c = '/' then acc.reverse :: splitSegs cs []
    else splitSegs cs (c :: acc)

/-- The `..` path element. -/
def dotdot : List Char := ['.', '.']

/-- The element-processing loop of Go's `filepath.Clean`: process the
segments left to right against a stack `out` (top first) of output
elements, dropping empty and `.` segments, letting `..` pop a normal
element (or be dropped at the root when `rooted`, or pushed when the
path is relative and the stack has no normal element on top). -/
def cleanStack (rooted : Bool) : List (List Char) → List (List Char) → List (List Char)
  | [], out => out
  | seg :: rest, out =>
    if seg = [] ∨ seg = ['.'] then cleanStack rooted rest out
    else if seg = dotdot then
      match out with
      | [] => if rooted then cleanStack rooted rest [] else cleanStack rooted rest [seg]
      | o :: os =>
        if o = dotdot then cleanStack rooted rest (seg :: o :: os)
        else cleanStack rooted rest os
    else cleanStack rooted rest (seg :: out)

/-- Render a list of segments (in path order) back into characters,
separated by slashes. -/
def renderSegs : List (List Char) → List Char
  | [] => []
  | [s] => s
  | s :: rest => s ++ '/' :: renderSegs rest

/-- Go's `filepath.Clean` on the character list of a path: the empty
path cleans to `.`; a rooted path keeps its leading slash; otherwise
the cleaned elements are rendered, with `.` standing for an empty
result. -/
def goCleanL (p : List Char) : List Char :=
  if p = [] then ['.']
  else if p.head? = some '/' then
    '/' :: renderSegs (cleanStack true (splitSegs p []) []).reverse
  else
    match (cleanStack false (splitSegs p []) []).reverse with
    | [] => ['.']
    | s :: rest => renderSegs (s :: rest)

/-- Go's `filepath.Clean`. -/
def goClean (p : String) : String := String.mk (goCleanL p.data)

/-- Go's `strings.Join` with the slash separator, at the character
level. -/
def joinRaw : List String → List Char
  | [] => []
  | [e] => e.data
  | e :: es => e.data ++ '/' :: joinRaw es

/-- Go's `filepath.Join`: skip leading empty elements, join the rest
with slashes and clean the result; all-empty input yields the empty
string. -/
def goJoin : List String → String
  | [] => ""
  | e :: es => if e = "" then goJoin es else goClean (String.mk (joinRaw (e :: es)))

/-- Go's `filepath.Base`: empty path gives `.`; otherwise trailing
slashes are stripped and the last slash-separated element is returned,
with `/` standing for a path of only slashes. -/
def goBase (p : String) : String :=
  if p = "" then (".")
  else
    let cs := p.data.reverse.dropWhile (fun c => c = '/')
    let base := cs.takeWhile (fun c => ¬ c = '/')
    if base = [] then ("/") else String.mk base.reverse

/-- Helper for `goExt`: scan the reversed characters of a path; stop
with the empty extension at a separator, or return the suffix from the
last dot. -/
def goExtAux : List Char → List Char → String
  | [], _ => ""
  | c :: cs, acc =>
    if c = '/' then ("")
    else if c = '.' then String.mk ('.' :: acc)
    else goExtAux cs (c :: acc)

/-- Go's `filepath.Ext`: the suffix of the final element starting at
its last dot, empty when the final element has no dot. -/
def goExt (p : String) : String := goExtAux p.data.reverse []

/-! ## The data model: the tri-state file status and the substitutable
environment/filesystem lookups -/

/-- The `fileExists` type of file.go: whether a file exists, only its
base directory exists, or neither exists. -/
inductive fileExists where
  | NotExists : fileExists
  | BaseExists : fileExists
  | FileExists : fileExists
  deriving DecidableEq, Repr

/-- One fixed assignment of the package's substitutable lookups:
`xdgConfigHome` (empty string means not configured), `userHomeDir`
(`none` models `os.UserHomeDir` returning an error), the directory
existence predicate `dirExists`, and the tri-state file predicate
`checkFile`. -/
structure Env where
  xdgConfigHome : String
  userHomeDir : Option String
  dirExists : String → Bool
  checkFile : String → fileExists

/-! ## Directory-mode candidate generator (dotconfig.go)

The Go generators are `iter.Seq` producers driven by a `yield`
callback that returns whether to continue.  A consumer is modelled as
a state-passing callback `σ → String → σ × Bool`; each generator
threads the consumer state exactly where the Go code calls `yield`. -/

/-- `listHome`: yield `{home}/lib/{app}`, and if the consumer
continues, `{home}/.{app}`. -/
def listHome {σ : Type} (yield : σ → String → σ × Bool) (s : σ) (home app : String) : σ :=
  match yield s (goJoin [home, "lib", app]) with
  | (s1, false) => s1
  | (s1, true) => (yield s1 (goJoin [home, "." ++ app])).1

/-- `listWithXDG`: yield `{xdg}/{app}`, and if the consumer continues
and the home directory resolves, continue with `listHome`. -/
def listWithXDG {σ : Type} (env : Env) (yield : σ → String → σ × Bool) (s : σ)
    (app xdg : String) : σ :=
  match yield s (goJoin [xdg, app]) with
  | (s1, false) => s1
  | (s1, true) =>
    match env.userHomeDir with
    | some home => listHome yield s1 home app
    | none => s1

/-- `listWithNoXDG`: only if the home directory resolves, yield
`{home}/.config/{app}` and, if the consumer continues, continue with
`listHome`. -/
def listWithNoXDG {σ : Type} (env : Env) (yield : σ → String → σ × Bool) (s : σ)
    (app : String) : σ :=
  match env.userHomeDir with
  | some home =>
    match yield s (goJoin [home, ".config", app]) with
    | (s1, false) => s1
    | (s1, true) => listHome yield s1 home app
  | none => s

/-- Iterating the sequence `list(app)`: branch on whether the XDG
config base is non-empty. -/
def listRun {σ : Type} (env : Env) (app : String) (yield : σ → String → σ × Bool) (s : σ) : σ :=
  if env.xdgConfigHome ≠ "" then listWithXDG env yield s app env.xdgConfigHome
  else listWithNoXDG env yield s app

/-- The realized directory-mode candidate sequence: run the generator
with a consumer that collects every candidate and always continues. -/
def list (env : Env) (app : String) : List String :=
  listRun env app (fun acc p => (acc ++ [p], true)) []

/-! ## Directory resolver (Dir) -/

/-- The body of Dir's `for` loop as a consumer: on an existing
directory, record the result `(dir, true)` and stop; otherwise record
the first candidate as the fallback and continue. -/
def dirYield (env : Env) : Option (String × Bool) × String → String →
    (Option (String × Bool) × String) × Bool
  | (some r, fb), _ => ((some r, fb), false)
  | (none, fb), dir =>
    if env.dirExists dir then ((some (dir, true), fb), false)
    else ((none, if fb = "" then dir else fb), true)

/-- `Dir`: search the candidate sequence for an existing directory;
with no hit, return the recorded fallback with `false`, and with no
candidates at all (`fallback` still empty) return `.{app}` together
with the predicate's result for it. -/
def Dir (env : Env) (app : String) : String × Bool :=
  match listRun env app (dirYield env) (none, "") with
  | (some r, _) => r
  | (none, fb) =>
    if fb = "" then ("." ++ app, env.dirExists ("." ++ app))
    else (fb, false)

/-! ## File-mode candidate generator and resolver (file.go) -/

/-- The `fileConfig` record: the application name and the effective
(normalized) file name. -/
structure fileConfig where
  App : String
  File : String
  deriving DecidableEq, Repr

/-- `newFileConfig`: reduce the file name to its final path component;
the sentinel components `.` and `/` are replaced by the application
name. -/
def newFileConfig (app file : String) : fileConfig :=
  let f := goBase file
  let f := if f = "." ∨ f = "/" then app else f
  { App := app, File := f }

/-- `fileConfig.ListHome`: yield `{home}/lib/{App}/{File}`, then
`{home}/.{App}/{File}`, then `{home}/.{App}{ext}` where `ext` is the
extension of the normalized file name, each step only if the consumer
continues. -/
def fileListHome {σ : Type} (cfg : fileConfig) (yield : σ → String → σ × Bool) (s : σ)
    (home : String) : σ :=
  match yield s (goJoin [home, "lib", cfg.App, cfg.File]) with
  | (s1, false) => s1
  | (s1, true) =>
    match yield s1 (goJoin [home, "." ++ cfg.App, cfg.File]) with
    | (s2, false) => s2
    | (s2, true) => (yield s2 (goJoin [home, "." ++ cfg.App ++ goExt cfg.File])).1

/-- `fileConfig.ListWithXDG`: yield `{xdg}/{App}/{File}` and, if the
consumer continues and the home directory resolves, continue with
`fileListHome`. -/
def fileListWithXDG {σ : Type} (env : Env) (cfg : fileConfig) (yield : σ → String → σ × Bool)
    (s : σ) (xdg : String) : σ :=
  match yield s (goJoin [xdg, cfg.App, cfg.File]) with
  | (s1, false) => s1
  | (s1, true) =>
    match env.userHomeDir with
    | some home => fileListHome cfg yield s1 home
    | none => s1

/-- `fileConfig.ListWithNoXDG`: only if the home directory resolves,
yield `{home}/.config/{App}/{File}` and, if the consumer continues,
continue with `fileListHome`. -/
def fileListWithNoXDG {σ : Type} (env : Env) (cfg : fileConfig) (yield : σ → String → σ × Bool)
    (s : σ) : σ :=
  match env.userHomeDir with
  | some home =>
    match yield s (goJoin [home, ".config", cfg.App, cfg.File]) with
    | (s1, false) => s1
    | (s1, true) => fileListHome cfg yield s1 home
  | none => s

/-- Iterating the sequence `cfg.List()`: branch on whether the XDG
config base is non-empty. -/
def fileListRun {σ : Type} (env : Env) (cfg : fileConfig) (yield : σ → String → σ × Bool)
    (s : σ) : σ :=
  if env.xdgConfigHome ≠ "" then fileListWithXDG env cfg yield s env.xdgConfigHome
  else fileListWithNoXDG env cfg yield s

/-- The realized file-mode candidate sequence: run the generator with
a consumer that collects every candidate and always continues. -/
def fileList (env : Env) (cfg : fileConfig) : List String :=
  fileListRun env cfg (fun acc p => (acc ++ [p], true)) []

/-- The body of File's `for` loop as a consumer: on a candidate whose
check is `FileExists`, record `(file, check)` and stop; otherwise
record the first candidate as the fallback and continue. -/
def fileYield (env : Env) : Option (String × fileExists) × String → String →
    (Option (String × fileExists) × String) × Bool
  | (some r, fb), _ => ((some r, fb), false)
  | (none, fb), file =>
    if env.checkFile file = fileExists.FileExists
    then ((some (file, env.checkFile file), fb), false)
    else ((none, if fb = "" then file else fb), true)

/-- The body of `File` after `newFileConfig`: search the candidate
sequence for a `FileExists` hit; with no hit return the recorded
fallback re-checked, and with no candidates at all first try
`.{app}/{File}` and then fall back to `.{app}{ext}` re-checked,
`ext` being the extension of the normalized file name. -/
def fileResolveCfg (env : Env) (app : String) (cfg : fileConfig) : String × fileExists :=
  match fileListRun env cfg (fileYield env) (none, "") with
  | (some r, _) => r
  | (none, fb) =>
    if fb = "" then
      let file := goJoin ["." ++ app, cfg.File]
      if env.checkFile file = fileExists.FileExists then (file, env.checkFile file)
      else ("." ++ app ++ goExt cfg.File, env.checkFile ("." ++ app ++ goExt cfg.File))
    else (fb, env.checkFile fb)

/-- `File`: normalize the name with `newFileConfig` and resolve. -/
def File (env : Env) (app name : String) : String × fileExists :=
  fileResolveCfg env app (newFileConfig app name)

/-! ## Auxiliary definitions used by the statements and proofs -/

/-- Evolution of the resolvers' `fallback` variable over a candidate
list: an initially empty fallback is replaced by the first candidate
and then kept. -/
def listFallback : String → List String → String
  | fb, [] => fb
  | fb, p :: ps => listFallback (if fb = "" then p else fb) ps

/-- The prefix of a candidate list a stateful consumer actually sees:
candidates are delivered in order and the list ends with the first
candidate the consumer declines. -/
def takeUntilStop {σ : Type} (yield : σ → String → σ × Bool) : σ → List String → List String
  | _, [] => []
  | s, p :: ps =>
    match yield s p with
    | (s1, true) => p :: takeUntilStop yield s1 ps
    | (_, false) => [p]

/-- Instrument a consumer so that it also records every candidate it
is handed. -/
def traceYield {σ : Type} (yield : σ → String → σ × Bool) :
    List String × σ → String → (List String × σ) × Bool :=
  fun st p =>
    match yield st.2 p with
    | (s1, c) => ((st.1 ++ [p], s1), c)

/-- The candidates the directory-mode generator hands to a given
consumer, in order. -/
def dirTrace (env : Env) (app : String) {σ : Type} (yield : σ → String → σ × Bool)
    (s : σ) : List String :=
  (listRun env app (traceYield yield) ([], s)).1

/-- The candidates the file-mode generator hands to a given consumer,
in order. -/
def fileTrace (env : Env) (cfg : fileConfig) {σ : Type} (yield : σ → String → σ × Bool)
    (s : σ) : List String :=
  (fileListRun env cfg (traceYield yield) ([], s)).1

/-- A path element that Go's Clean copies verbatim: non-empty and
neither `.` nor `..`, containing no separator. -/
def NormalSeg (s : List Char) : Prop :=
  s ≠ [] ∧ s ≠ ['.'] ∧ s ≠ dotdot ∧ '/' ∉ s

/-- The stacks reachable by Clean's element loop: some `..` elements
at the bottom (none when the path is rooted) below verbatim elements. -/
def GoodStack (r : Bool) (S : List (List Char)) : Prop :=
  ∃ ns k, S = ns ++ List.replicate k dotdot ∧ (∀ s ∈ ns, NormalSeg s) ∧ (r = true → k = 0)

/-- A sample environment: XDG base and home both set, no directory and
no file exists anywhere. -/
def envAllMiss : Env where
  xdgConfigHome := "/mock/xdg"
  userHomeDir := some ("/mock/home")
  dirExists := fun _ => false
  checkFile := fun _ => fileExists.NotExists

/-- A sample environment: XDG base and home set; exactly the Plan9
`lib` directory of the application `myapp`, and the file `config.yaml`
inside it, exist. -/
def envLibHit : Env where
  xdgConfigHome := "/mock/xdg"
  userHomeDir := some ("/mock/home")
  dirExists := fun d => d == "/mock/home/lib/myapp"
  checkFile := fun f =>
    if f == "/mock/home/lib/myapp/config.yaml" then fileExists.FileExists
    else fileExists.NotExists

/-- A sample environment: no XDG base, home lookup fails, nothing
exists. -/
def envEmpty : Env where
  xdgConfigHome := ""
  userHomeDir := none
  dirExists := fun _ => false
  checkFile := fun _ => fileExists.NotExists

/-! ## Generic facts about driving a generator over its realized
candidate list -/

/-- Short-circuit left fold of a consumer over an explicit candidate
list: the consumer is called on each candidate in order until it
declines. -/
def runOver {σ : Type} (yield : σ → String → σ × Bool) : σ → List String → σ
  | s, [] => s
  | s, p :: ps =>
    match yield s p with
    | (s1, true) => runOver yield s1 ps
    | (s1, false) => s1

theorem runOver_nil {σ : Type} (yield : σ → String → σ × Bool) (s : σ) :
    runOver yield s [] = s := rfl

theorem runOver_cons {σ : Type} (yield : σ → String → σ × Bool) (s : σ) (p : String)
    (ps : List String) :
    runOver yield s (p :: ps) =
      match yield s p with
      | (s1, true) => runOver yield s1 ps
      | (s1, false) => s1 := rfl

/-- The realized directory-mode candidate sequence, branch by branch. -/
theorem list_explicit (env : Env) (app : String) :
    list env app =
      if env.xdgConfigHome ≠ "" then
        goJoin [env.xdgConfigHome, app] ::
          (match env.userHomeDir with
           | some home => [goJoin [home, "lib", app], goJoin [home, "." ++ app]]
           | none => [])
      else
        match env.userHomeDir with
        | some home =>
          [goJoin [home, ".config", app], goJoin [home, "lib", app], goJoin [home, "." ++ app]]
        | none => [] := by
  unfold list listRun listWithXDG listWithNoXDG listHome
  cases hh : env.userHomeDir <;> by_cases hx : env.xdgConfigHome = "" <;> simp [hx, hh]

/-- The realized file-mode candidate sequence, branch by branch. -/
theorem fileList_explicit (env : Env) (cfg : fileConfig) :
    fileList env cfg =
      if env.xdgConfigHome ≠ "" then
        goJoin [env.xdgConfigHome, cfg.App, cfg.File] ::
          (match env.userHomeDir with
           | some home =>
             [goJoin [home, "lib", cfg.App, cfg.File],
              goJoin [home, "." ++ cfg.App, cfg.File],
              goJoin [home, "." ++ cfg.App ++ goExt cfg.File]]
           | none => [])
      else
        match env.userHomeDir with
        | some home =>
          [goJoin [home, ".config", cfg.App, cfg.File],
           goJoin [home, "lib", cfg.App, cfg.File],
           goJoin [home, "." ++ cfg.App, cfg.File],
           goJoin [home, "." ++ cfg.App ++ goExt cfg.File]]
        | none => [] := by
  unfold fileList fileListRun fileListWithXDG fileListWithNoXDG fileListHome
  cases hh : env.userHomeDir <;> by_cases hx : env.xdgConfigHome = "" <;> simp [hx, hh]

theorem listHome_eq_runOver {σ : Type} (yield : σ → String → σ × Bool) (s : σ)
    (home app : String) :
    listHome yield s home app =
      runOver yield s [goJoin [home, "lib", app], goJoin [home, "." ++ app]] := by
  unfold listHome
  rcases h1 : yield s (goJoin [home, "lib", app]) with ⟨s1, b1⟩
  cases b1 <;> simp [runOver_cons, runOver_nil, h1]
  rcases h2 : yield s1 (goJoin [home, "." ++ app]) with ⟨s2, b2⟩
  cases b2 <;> simp [runOver_cons, runOver_nil, h2]

/-- Driving the directory-mode generator with any consumer is the
short-circuit fold of that consumer over the realized candidate list:
the lazy sequence and its eager realization agree for every consumer. -/
theorem listRun_eq_runOver {σ : Type} (env : Env) (app : String)
    (yield : σ → String → σ × Bool) (s : σ) :
    listRun env app yield s = runOver yield s (list env app) := by
  rw [list_explicit]
  unfold listRun listWithXDG listWithNoXDG
  cases hh : env.userHomeDir with
  | none =>
    by_cases hx : env.xdgConfigHome = "" <;> simp [hx, hh, runOver_nil]
    rcases h1 : yield s (goJoin [env.xdgConfigHome, app]) with ⟨s1, b1⟩
    cases b1 <;> simp [runOver_cons, runOver_nil, h1]
  | some home =>
    by_cases hx : env.xdgConfigHome = "" <;> simp [hx, hh]
    · rcases h1 : yield s (goJoin [home, ".config", app]) with ⟨s1, b1⟩
      cases b1 <;> simp [runOver_cons, runOver_nil, h1]
      exact listHome_eq_runOver yield s1 home app
    · rcases h1 : yield s (goJoin [env.xdgConfigHome, app]) with ⟨s1, b1⟩
      cases b1 <;> simp [runOver_cons, runOver_nil, h1]
      exact listHome_eq_runOver yield s1 home app

theorem fileListHome_eq_runOver {σ : Type} (cfg : fileConfig) (yield : σ → String → σ × Bool)
    (s : σ) (home : String) :
    fileListHome cfg yield s home =
      runOver yield s
        [goJoin [home, "lib", cfg.App, cfg.File],
         goJoin [home, "." ++ cfg.App, cfg.File],
         goJoin [home, "." ++ cfg.App ++ goExt cfg.File]] := by
  unfold fileListHome
  rcases h1 : yield s (goJoin [home, "lib", cfg.App, cfg.File]) with ⟨s1, b1⟩
  cases b1 <;> simp [runOver_cons, runOver_nil, h1]
  rcases h2 : yield s1 (goJoin [home, "." ++ cfg.App, cfg.File]) with ⟨s2, b2⟩
  cases b2 <;> simp [runOver_cons, runOver_nil, h2]
  rcases h3 : yield s2 (goJoin [home, "." ++ cfg.App ++ goExt cfg.File]) with ⟨s3, b3⟩
  cases b3 <;> simp [runOver_cons, runOver_nil, h3]

/-- Driving the file-mode generator with any consumer is the
short-circuit fold of that consumer over the realized candidate list. -/
theorem fileListRun_eq_runOver {σ : Type} (env : Env) (cfg : fileConfig)
    (yield : σ → String → σ × Bool) (s : σ) :
    fileListRun env cfg yield s = runOver yield s (fileList env cfg) := by
  rw [fileList_explicit]
  unfold fileListRun fileListWithXDG fileListWithNoXDG
  cases hh : env.userHomeDir with
  | none =>
    by_cases hx : env.xdgConfigHome = "" <;> simp [hx, hh, runOver_nil]
    rcases h1 : yield s (goJoin [env.xdgConfigHome, cfg.App, cfg.File]) with ⟨s1, b1⟩
    cases b1 <;> simp [runOver_cons, runOver_nil, h1]
  | some home =>
    by_cases hx : env.xdgConfigHome = "" <;> simp [hx, hh]
    · rcases h1 : yield s (goJoin [home, ".config", cfg.App, cfg.File]) with ⟨s1, b1⟩
      cases b1 <;> simp [runOver_cons, runOver_nil, h1]
      exact fileListHome_eq_runOver cfg yield s1 home
    · rcases h1 : yield s (goJoin [env.xdgConfigHome, cfg.App, cfg.File]) with ⟨s1, b1⟩
      cases b1 <;> simp [runOver_cons, runOver_nil, h1]
      exact fileListHome_eq_runOver cfg yield s1 home

/-! ## The resolver loops over an explicit candidate list -/

theorem listFallback_of_ne : ∀ (L : List String) (fb : String), fb ≠ "" →
    listFallback fb L = fb := by
  intro L
  induction L with
  | nil => intro fb _; rfl
  | cons p ps ih =>
    intro fb h
    simp only [listFallback, if_neg h]
    exact ih fb h

theorem listFallback_head (d : String) (ds : List String) (hd : d ≠ "") :
    listFallback ("") (d :: ds) = d := by
  simp only [listFallback, if_pos rfl]
  exact listFallback_of_ne ds d hd

/-- Dir's loop on a list with a first existing candidate: the earliest
hit is recorded and the loop stops. -/
theorem runOver_dir_found (env : Env) :
    ∀ (L : List String) (fb d : String), L.find? env.dirExists = some d →
      ∃ fb2, runOver (dirYield env) (none, fb) L = (some (d, true), fb2) := by
  intro L
  induction L with
  | nil => intro fb d h; simp at h
  | cons p ps ih =>
    intro fb d h
    by_cases hp : env.dirExists p
    · rw [List.find?_cons_of_pos _ hp, Option.some.injEq] at h
      subst h
      exact ⟨fb, by simp [runOver_cons, dirYield, hp]⟩
    · rw [List.find?_cons_of_neg _ hp] at h
      obtain ⟨fb2, hrec⟩ := ih (if fb = "" then p else fb) d h
      refine ⟨fb2, ?_⟩
      rw [runOver_cons]
      simp only [dirYield, hp, Bool.false_eq_true, if_false]
      exact hrec

/-- Dir's loop on a list with no existing candidate: the loop runs to
the end, only updating the fallback. -/
theorem runOver_dir_none (env : Env) :
    ∀ (L : List String) (fb : String), (∀ x ∈ L, env.dirExists x = false) →
      runOver (dirYield env) (none, fb) L = (none, listFallback fb L) := by
  intro L
  induction L with
  | nil => intro fb _; simp [runOver_nil, listFallback]
  | cons p ps ih =>
    intro fb h
    have hp : env.dirExists p = false := h p (by simp)
    rw [runOver_cons]
    simp only [dirYield, hp, Bool.false_eq_true, if_false, listFallback]
    exact ih _ (fun x hx => h x (by simp [hx]))

/-- File's loop on a list with a first `FileExists` candidate: the
earliest hit is recorded with its status and the loop stops. -/
theorem runOver_file_found (env : Env) :
    ∀ (L : List String) (fb p : String),
      L.find? (fun x => decide (env.checkFile x = fileExists.FileExists)) = some p →
      ∃ fb2, runOver (fileYield env) (none, fb) L = (some (p, fileExists.FileExists), fb2) := by
  intro L
  induction L with
  | nil => intro fb p h; simp at h
  | cons c cs ih =>
    intro fb p h
    by_cases hp : env.checkFile c = fileExists.FileExists
    · rw [List.find?_cons_of_pos _ (by simpa using hp), Option.some.injEq] at h
      subst h
      exact ⟨fb, by simp [runOver_cons, fileYield, hp]⟩
    · rw [List.find?_cons_of_neg _ (by simpa using hp)] at h
      obtain ⟨fb2, hrec⟩ := ih (if fb = "" then c else fb) p h
      refine ⟨fb2, ?_⟩
      rw [runOver_cons]
      simp only [fileYield, hp, if_false]
      exact hrec

/-- File's loop on a list with no `FileExists` candidate: the loop
runs to the end, only updating the fallback. -/
theorem runOver_file_none (env : Env) :
    ∀ (L : List String) (fb : String),
      (∀ x ∈ L, env.checkFile x ≠ fileExists.FileExists) →
      runOver (fileYield env) (none, fb) L = (none, listFallback fb L) := by
  intro L
  induction L with
  | nil => intro fb _; simp [runOver_nil, listFallback]
  | cons c cs ih =>
    intro fb h
    have hp : env.checkFile c ≠ fileExists.FileExists := h c (by simp)
    rw [runOver_cons]
    simp only [fileYield, hp, if_false, listFallback]
    exact ih _ (fun x hx => h x (by simp [hx]))

/-! ## Path algebra: facts about splitSegs, cleanStack and rendering -/

theorem mk_ne_empty (l : List Char) (h : l ≠ []) : String.mk l ≠ "" := by
  intro he
  exact h (by simpa using congrArg String.data he)

theorem dot_append_ne (s : String) : ("." ++ s) ≠ "" := by
  intro he
  simpa using congrArg String.data he

theorem splitSegs_append : ∀ (a : List Char) (acc b : List Char),
    splitSegs (a ++ '/' :: b) acc = splitSegs a acc ++ splitSegs b [] := by
  intro a
  induction a with
  | nil => intro acc b; simp [splitSegs]
  | cons c cs ih =>
    intro acc b
    by_cases hc : c = '/'
    · subst hc
      simp [splitSegs, ih]
    · simp [splitSegs, hc, ih]

theorem splitSegs_no_slash : ∀ (a acc : List Char), '/' ∉ a →
    splitSegs a acc = [acc.reverse ++ a] := by
  intro a
  induction a with
  | nil => intro acc _; simp [splitSegs]
  | cons c cs ih =>
    intro acc h
    have hc : ¬ c = '/' := fun hc => h (by simp [hc])
    simp only [splitSegs, if_neg hc]
    rw [ih (c :: acc) (fun hm => h (by simp [hm]))]
    simp

theorem splitSegs_slashfree : ∀ (a acc : List Char), '/' ∉ acc →
    ∀ s ∈ splitSegs a acc, '/' ∉ s := by
  intro a
  induction a with
  | nil =>
    intro acc hacc s hs
    simp [splitSegs] at hs
    subst hs
    simpa using hacc
  | cons c cs ih =>
    intro acc hacc s hs
    by_cases hc : c = '/'
    · subst hc
      simp only [splitSegs, if_pos rfl] at hs
      rcases List.mem_cons.1 hs with h | h
      · subst h; simpa using hacc
      · exact ih [] (by simp) s h
    · simp only [splitSegs, if_neg hc] at hs
      exact ih (c :: acc) (by simp [hacc, Ne.symm hc]) s hs

theorem cleanStack_append (r : Bool) : ∀ (xs ys out : List (List Char)),
    cleanStack r (xs ++ ys) out = cleanStack r ys (cleanStack r xs out) := by
  intro xs
  induction xs with
  | nil => intro ys out; rfl
  | cons seg rest ih =>
    intro ys out
    by_cases h1 : seg = [] ∨ seg = ['.']
    · simp only [List.cons_append, cleanStack, if_pos h1]
      exact ih ys out
    · by_cases h2 : seg = dotdot
      · cases out with
        | nil =>
          cases r <;>
            simp only [List.cons_append, cleanStack, if_neg h1, if_pos h2, Bool.false_eq_true,
              if_false, if_true] <;> exact ih ys _
        | cons o os =>
          by_cases h3 : o = dotdot <;>
            simp only [List.cons_append, cleanStack, if_neg h1, if_pos h2, if_pos, if_neg, h3,
              if_true, if_false] <;> exact ih ys _
      · simp only [List.cons_append, cleanStack, if_neg h1, if_neg h2]
        exact ih ys _

theorem goodStack_nil (r : Bool) : GoodStack r [] :=
  ⟨[], 0, by simp, by simp, fun _ => rfl⟩

theorem goodStack_elems {r : Bool} {S : List (List Char)} (h : GoodStack r S) :
    ∀ s ∈ S, s ≠ [] ∧ '/' ∉ s := by
  obtain ⟨ns, k, rfl, hns, _⟩ := h
  intro s hs
  rcases List.mem_append.1 hs with h | h
  · exact ⟨(hns s h).1, (hns s h).2.2.2⟩
  · have := List.eq_of_mem_replicate h
    subst this
    refine ⟨by simp [dotdot], by decide⟩

/-- Clean's element loop preserves the reachable-stack invariant. -/
theorem cleanStack_good (r : Bool) : ∀ (segs out : List (List Char)),
    (∀ s ∈ segs, '/' ∉ s) → GoodStack r out → GoodStack r (cleanStack r segs out) := by
  intro segs
  induction segs with
  | nil => intro out _ h; exact h
  | cons seg rest ih =>
    intro out hsf hout
    have hsr : ∀ s ∈ rest, '/' ∉ s := fun s hs => hsf s (by simp [hs])
    by_cases h1 : seg = [] ∨ seg = ['.']
    · simp only [cleanStack, if_pos h1]
      exact ih out hsr hout
    · by_cases h2 : seg = dotdot
      · subst h2
        cases out with
        | nil =>
          cases r with
          | true =>
            simp only [cleanStack, if_neg h1, if_pos rfl, if_true]
            exact ih [] hsr (goodStack_nil true)
          | false =>
            simp only [cleanStack, if_neg h1, if_pos rfl, Bool.false_eq_true, if_false]
            exact ih [dotdot] hsr ⟨[], 1, by simp, by simp, by simp⟩
        | cons o os =>
          obtain ⟨ns, k, hS, hns, hrk⟩ := hout
          by_cases h3 : o = dotdot
          · simp only [cleanStack, if_neg h1, if_pos rfl, if_pos h3]
            have hns0 : ns = [] := by
              cases ns with
              | nil => rfl
              | cons n0 ns' =>
                simp only [List.cons_append, List.cons.injEq] at hS
                exact absurd (hS.1 ▸ h3) (hns n0 (by simp)).2.2.1
            subst hns0
            simp only [List.nil_append] at hS
            cases k with
            | zero => simp at hS
            | succ k' =>
              rw [List.replicate_succ, List.cons.injEq] at hS
              refine ih _ hsr ⟨[], k' + 2, ?_, by simp, ?_⟩
              · rw [List.nil_append, List.replicate_succ, List.replicate_succ]
                rw [hS.1] at h3 ⊢
                rw [hS.2]
              · intro hr
                exact absurd (hrk hr) (by simp)
          · simp only [cleanStack, if_neg h1, if_pos rfl, if_neg h3]
            obtain ⟨ns', hns', hos⟩ : ∃ ns', ns = o :: ns' ∧ os = ns' ++ List.replicate k dotdot := by
              cases ns with
              | nil =>
                simp only [List.nil_append] at hS
                cases k with
                | zero => simp at hS
                | succ k' =>
                  rw [List.replicate_succ, List.cons.injEq] at hS
                  exact absurd hS.1 h3
              | cons n0 ns' =>
                simp only [List.cons_append, List.cons.injEq] at hS
                exact ⟨ns', by rw [hS.1], hS.2⟩
            exact ih _ hsr ⟨ns', k, hos, fun s hs => hns s (by simp [hns', hs]), hrk⟩
      · simp only [cleanStack, if_neg h1, if_neg h2]
        obtain ⟨ns, k, hS, hns, hrk⟩ := hout
        refine ih _ hsr ⟨seg :: ns, k, by simp [hS], ?_, hrk⟩
        intro x hx
        rcases List.mem_cons.1 hx with h | h
        · rw [h]
          exact ⟨fun hnil => h1 (Or.inl hnil), fun hdot => h1 (Or.inr hdot), h2,
            hsf seg (by simp)⟩
        · exact hns x h

/-- Verbatim elements are simply pushed by Clean's loop. -/
theorem cleanStack_push_all (r : Bool) : ∀ (l out : List (List Char)),
    (∀ s ∈ l, NormalSeg s) → cleanStack r l out = l.reverse ++ out := by
  intro l
  induction l with
  | nil => intro out _; simp [cleanStack]
  | cons seg rest ih =>
    intro out h
    have hn : NormalSeg seg := h seg (by simp)
    have h1 : ¬ (seg = [] ∨ seg = ['.']) := by
      rintro (hc | hc)
      · exact hn.1 hc
      · exact hn.2.1 hc
    simp only [cleanStack, if_neg h1, if_neg hn.2.2.1]
    rw [ih (seg :: out) (fun s hs => h s (by simp [hs]))]
    simp

/-- A run of `..` elements processed from an all-`..` relative stack
just piles up. -/
theorem cleanStack_dotdots : ∀ (k m : ℕ),
    cleanStack false (List.replicate k dotdot) (List.replicate m dotdot) =
      List.replicate (k + m) dotdot := by
  intro k
  induction k with
  | zero => intro m; simp [cleanStack]
  | succ k' ih =>
    intro m
    rw [List.replicate_succ]
    have h1 : ¬ (dotdot = [] ∨ dotdot = ['.']) := by decide
    cases m with
    | zero =>
      simp only [List.replicate_zero]
      simp only [cleanStack, if_neg h1, if_pos rfl, Bool.false_eq_true, if_false]
      have h2 := ih 1
      rw [show List.replicate 1 dotdot = [dotdot] from rfl] at h2
      rw [h2]
      simp
    | succ m' =>
      rw [List.replicate_succ]
      simp only [cleanStack, if_neg h1, if_pos rfl]
      rw [← List.replicate_succ, ← List.replicate_succ]
      rw [ih (m' + 2)]
      have harith : k' + (m' + 2) = k' + 1 + (m' + 1) := by omega
      rw [harith]
      simp

/-- Re-processing a reachable stack (read bottom to top) rebuilds the
same stack: Clean is stable on its own output. -/
theorem cleanStack_reprocess {r : Bool} {S : List (List Char)} (h : GoodStack r S) :
    cleanStack r S.reverse [] = S := by
  obtain ⟨ns, k, rfl, hns, hrk⟩ := h
  rw [List.reverse_append, List.reverse_replicate]
  rw [cleanStack_append]
  have hinner : cleanStack r (List.replicate k dotdot) [] = List.replicate k dotdot := by
    cases r with
    | true =>
      rw [hrk rfl]
      simp [cleanStack]
    | false =>
      have := cleanStack_dotdots k 0
      simpa using this
  rw [hinner]
  rw [cleanStack_push_all r ns.reverse _ (by intro s hs; exact hns s (List.mem_reverse.1 hs))]
  simp

theorem renderSegs_ne_nil (s : List Char) (rest : List (List Char)) (hs : s ≠ []) :
    renderSegs (s :: rest) ≠ [] := by
  cases rest with
  | nil => simpa [renderSegs] using hs
  | cons t r =>
    simp only [renderSegs]
    intro h
    cases s <;> simp_all

/-- Rendering non-empty slash-free segments yields characters starting
with a non-separator. -/
theorem renderSegs_head : ∀ (S : List (List Char)), S ≠ [] →
    (∀ s ∈ S, s ≠ [] ∧ '/' ∉ s) →
    ∃ c cs, renderSegs S = c :: cs ∧ c ≠ '/' := by
  intro S
  cases S with
  | nil => intro h _; exact absurd rfl h
  | cons s rest =>
    intro _ h
    obtain ⟨hs, hsf⟩ := h s (by simp)
    cases s with
    | nil => exact absurd rfl hs
    | cons c cs' =>
      have hc : c ≠ '/' := fun hc => hsf (by simp [hc])
      cases rest with
      | nil => exact ⟨c, cs', by simp [renderSegs], hc⟩
      | cons t r => exact ⟨c, cs' ++ '/' :: renderSegs (t :: r), by simp [renderSegs], hc⟩

/-- Splitting the rendering of slash-free segments recovers the
segments. -/
theorem splitSegs_render : ∀ (S : List (List Char)), S ≠ [] →
    (∀ s ∈ S, '/' ∉ s) → splitSegs (renderSegs S) [] = S := by
  intro S
  induction S with
  | nil => intro h _; exact absurd rfl h
  | cons s rest ih =>
    intro _ h
    cases rest with
    | nil =>
      simp only [renderSegs]
      rw [splitSegs_no_slash s [] (h s (by simp))]
      simp
    | cons t r =>
      simp only [renderSegs]
      rw [splitSegs_append]
      rw [splitSegs_no_slash s [] (h s (by simp))]
      rw [ih (by simp) (fun x hx => h x (by simp [hx]))]
      simp

theorem cleanStack_nil_seg (r : Bool) (segs out : List (List Char)) :
    cleanStack r ([] :: segs) out = cleanStack r segs out := by
  simp [cleanStack]

theorem cleanStack_dot_seg (r : Bool) (segs out : List (List Char)) :
    cleanStack r (['.'] :: segs) out = cleanStack r segs out := by
  simp [cleanStack]

theorem goodStack_clean (r : Bool) (p : List Char) :
    GoodStack r (cleanStack r (splitSegs p []) []) :=
  cleanStack_good r _ [] (splitSegs_slashfree p [] (by simp)) (goodStack_nil r)

theorem goCleanL_ne_nil (p : List Char) : goCleanL p ≠ [] := by
  rw [goCleanL]
  by_cases h0 : p = []
  · simp [h0]
  · rw [if_neg h0]
    by_cases hr : p.head? = some '/'
    · simp [hr]
    · rw [if_neg hr]
      cases hrev : (cleanStack false (splitSegs p []) []).reverse with
      | nil => simp
      | cons s rest =>
        have hs : s ≠ [] := by
          have hmem : s ∈ cleanStack false (splitSegs p []) [] := by
            rw [← List.mem_reverse, hrev]
            simp
          exact (goodStack_elems (goodStack_clean false p) s hmem).1
        simpa using renderSegs_ne_nil s rest hs

/-- Processing the rendering of a reachable stack followed by more
path characters is the same as continuing from that stack. -/
theorem stack_render_append (r : Bool) {S : List (List Char)} (h : GoodStack r S)
    (q : List Char) :
    cleanStack r (splitSegs (renderSegs S.reverse ++ '/' :: q) []) [] =
      cleanStack r (splitSegs q []) S := by
  rw [splitSegs_append, cleanStack_append]
  cases hSr : S.reverse with
  | nil =>
    have hS : S = [] := List.reverse_eq_nil_iff.1 hSr
    rw [show renderSegs [] = ([] : List Char) from rfl]
    rw [show splitSegs ([] : List Char) [] = [[]] from rfl]
    rw [cleanStack_nil_seg]
    rw [show cleanStack r [] [] = [] from rfl, hS]
  | cons s rest =>
    rw [splitSegs_render (s :: rest) (by simp) ?_]
    · rw [← hSr, cleanStack_reprocess h]
    · intro x hx
      have hxS : x ∈ S := List.mem_reverse.1 (hSr ▸ hx)
      exact (goodStack_elems h x hxS).2

/-- Cleaning a rooted path reduces to the rooted form. -/
theorem goCleanL_rooted (x : List Char) :
    goCleanL ('/' :: x) =
      '/' :: renderSegs (cleanStack true (splitSegs ('/' :: x) []) []).reverse := by
  rw [goCleanL]
  simp

/-- Cleaning a non-rooted non-empty path reduces to the relative form. -/
theorem goCleanL_unrooted (c : Char) (x : List Char) (hc : c ≠ '/') :
    goCleanL (c :: x) =
      match (cleanStack false (splitSegs (c :: x) []) []).reverse with
      | [] => ['.']
      | s :: rest => renderSegs (s :: rest) := by
  rw [goCleanL]
  simp [hc]

/-- The key composition property behind `filepath.Join`'s use of
Clean: cleaning a path and then appending more elements cleans to the
same result as appending first. -/
theorem goCleanL_append (p q : List Char) (hp : p ≠ []) :
    goCleanL (goCleanL p ++ '/' :: q) = goCleanL (p ++ '/' :: q) := by
  obtain ⟨c, pt, rfl⟩ : ∃ c pt, p = c :: pt := by
    cases p with
    | nil => exact absurd rfl hp
    | cons c pt => exact ⟨c, pt, rfl⟩
  by_cases hc : c = '/'
  · subst hc
    rw [goCleanL_rooted pt]
    rw [show ('/' :: renderSegs (cleanStack true (splitSegs ('/' :: pt) []) []).reverse)
        ++ '/' :: q =
        '/' :: (renderSegs (cleanStack true (splitSegs ('/' :: pt) []) []).reverse
          ++ '/' :: q) from by simp]
    rw [show ('/' :: pt) ++ '/' :: q = '/' :: (pt ++ '/' :: q) from by simp]
    rw [goCleanL_rooted, goCleanL_rooted]
    suffices hst :
        cleanStack true
            (splitSegs ('/' :: (renderSegs (cleanStack true (splitSegs ('/' :: pt) []) []).reverse
              ++ '/' :: q)) []) [] =
          cleanStack true (splitSegs ('/' :: (pt ++ '/' :: q)) []) [] by
      rw [hst]
    rw [show splitSegs ('/' :: (renderSegs (cleanStack true (splitSegs ('/' :: pt) []) []).reverse
        ++ '/' :: q)) [] =
        [] :: splitSegs (renderSegs (cleanStack true (splitSegs ('/' :: pt) []) []).reverse
          ++ '/' :: q) [] from by simp [splitSegs]]
    rw [show splitSegs ('/' :: (pt ++ '/' :: q)) [] = [] :: splitSegs (pt ++ '/' :: q) [] from by
      simp [splitSegs]]
    rw [cleanStack_nil_seg, cleanStack_nil_seg]
    rw [stack_render_append true (goodStack_clean true ('/' :: pt)) q]
    rw [splitSegs_append, cleanStack_append]
    rw [show splitSegs ('/' :: pt) [] = [] :: splitSegs pt [] from by simp [splitSegs]]
    rw [cleanStack_nil_seg]
  · rw [goCleanL_unrooted c pt hc]
    cases hSr : (cleanStack false (splitSegs (c :: pt) []) []).reverse with
    | nil =>
      rw [show (['.'] ++ '/' :: q : List Char) = '.' :: '/' :: q from by simp]
      rw [goCleanL_unrooted '.' ('/' :: q) (by decide)]
      rw [show ((c :: pt) ++ '/' :: q : List Char) = c :: (pt ++ '/' :: q) from by simp]
      rw [goCleanL_unrooted c (pt ++ '/' :: q) hc]
      have hS : cleanStack false (splitSegs (c :: pt) []) [] = [] :=
        List.reverse_eq_nil_iff.1 hSr
      rw [show splitSegs ('.' :: '/' :: q) [] = ['.'] :: splitSegs q [] from by
        simp [splitSegs]]
      rw [cleanStack_dot_seg]
      rw [show splitSegs (c :: (pt ++ '/' :: q)) [] =
          splitSegs (c :: pt) [] ++ splitSegs q [] from by
        rw [← splitSegs_append]
        simp]
      rw [cleanStack_append, hS]
    | cons s rest =>
      have helems : ∀ x ∈ s :: rest, x ≠ [] ∧ '/' ∉ x := by
        intro x hx
        have hxS : x ∈ cleanStack false (splitSegs (c :: pt) []) [] :=
          List.mem_reverse.1 (hSr ▸ hx)
        exact goodStack_elems (goodStack_clean false (c :: pt)) x hxS
      obtain ⟨ch, cs, hrender, hch⟩ := renderSegs_head (s :: rest) (by simp) helems
      have hLarg : renderSegs (s :: rest) ++ '/' :: q = ch :: (cs ++ '/' :: q) := by
        rw [hrender]
        simp
      rw [hLarg, goCleanL_unrooted ch (cs ++ '/' :: q) hch]
      rw [show ((c :: pt) ++ '/' :: q : List Char) = c :: (pt ++ '/' :: q) from by simp]
      rw [goCleanL_unrooted c (pt ++ '/' :: q) hc]
      suffices hst :
          cleanStack false (splitSegs (ch :: (cs ++ '/' :: q)) []) [] =
            cleanStack false (splitSegs (c :: (pt ++ '/' :: q)) []) [] by
        rw [hst]
      rw [← hLarg, ← hSr]
      rw [stack_render_append false (goodStack_clean false (c :: pt)) q]
      rw [show splitSegs (c :: (pt ++ '/' :: q)) [] =
          splitSegs (c :: pt) [] ++ splitSegs q [] from by
        rw [← splitSegs_append]
        simp]
      rw [cleanStack_append]

theorem goClean_mk (l : List Char) : goClean (String.mk l) = String.mk (goCleanL l) := rfl

theorem data_eq_nil {s : String} (h : s.data = []) : s = "" := by
  cases s with
  | mk l =>
    simp only [String.data] at h
    subst h
    rfl

theorem joinRaw_snoc (f : String) : ∀ (es : List String), es ≠ [] →
    joinRaw (es ++ [f]) = joinRaw es ++ '/' :: f.data := by
  intro es
  induction es with
  | nil => intro h; exact absurd rfl h
  | cons e es' ih =>
    intro _
    cases es' with
    | nil => simp [joinRaw]
    | cons e2 es'' =>
      have h2 := ih (by simp)
      simp only [joinRaw, List.cons_append] at h2 ⊢
      simp [h2]

theorem joinRaw_cons_ne (e : String) (es : List String) (he : e ≠ "") :
    joinRaw (e :: es) ≠ [] := by
  have hd : e.data ≠ [] := fun h => he (data_eq_nil h)
  cases es with
  | nil => simpa [joinRaw] using hd
  | cons e2 es' => simp [joinRaw]

theorem goJoin_cons (e : String) (es : List String) (he : e ≠ "") :
    goJoin (e :: es) = goClean (String.mk (joinRaw (e :: es))) := by
  simp [goJoin, he]

theorem goJoin_cons_empty (es : List String) : goJoin ("" :: es) = goJoin es := by
  simp [goJoin]

theorem goJoin_pair (a f : String) (ha : a ≠ "") :
    goJoin [a, f] = goClean (String.mk (a.data ++ '/' :: f.data)) := by
  rw [goJoin_cons a [f] ha]
  rw [show joinRaw [a, f] = a.data ++ '/' :: f.data from by simp [joinRaw]]

/-- A `goJoin` never returns the empty string unless all its elements
are empty. -/
theorem goJoin_ne : ∀ (es : List String), (∃ e ∈ es, e ≠ "") → goJoin es ≠ "" := by
  intro es
  induction es with
  | nil =>
    rintro ⟨e, he, -⟩
    simp at he
  | cons e es' ih =>
    rintro ⟨w, hw, hwne⟩
    by_cases he : e = ""
    · subst he
      rw [goJoin_cons_empty]
      apply ih
      rcases List.mem_cons.1 hw with h | h
      · exact absurd h hwne
      · exact ⟨w, h, hwne⟩
    · rw [goJoin_cons e es' he, goClean_mk]
      exact mk_ne_empty _ (goCleanL_ne_nil _)

/-- Joining the result of a join with one more element equals joining
all elements at once: `Join(Join(es...), f) = Join(es..., f)`. -/
theorem goJoin_append_one : ∀ (es : List String) (f : String),
    goJoin [goJoin es, f] = goJoin (es ++ [f]) := by
  intro es
  induction es with
  | nil =>
    intro f
    simp [goJoin]
  | cons e es' ih =>
    intro f
    by_cases he : e = ""
    · subst he
      rw [goJoin_cons_empty, ih f]
      rw [show ("" :: es') ++ [f] = "" :: (es' ++ [f]) from by simp]
      rw [goJoin_cons_empty]
    · have hJ : joinRaw (e :: es') ≠ [] := joinRaw_cons_ne e es' he
      have hg : goJoin (e :: es') = goClean (String.mk (joinRaw (e :: es'))) :=
        goJoin_cons e es' he
      have hne : goJoin (e :: es') ≠ "" := by
        rw [hg, goClean_mk]
        exact mk_ne_empty _ (goCleanL_ne_nil _)
      have ha : (goJoin (e :: es')).data = goCleanL (joinRaw (e :: es')) := by
        rw [hg, goClean_mk]
      calc goJoin [goJoin (e :: es'), f]
          = goClean (String.mk ((goJoin (e :: es')).data ++ '/' :: f.data)) :=
            goJoin_pair _ f hne
        _ = String.mk (goCleanL (goCleanL (joinRaw (e :: es')) ++ '/' :: f.data)) := by
            rw [ha, goClean_mk]
        _ = String.mk (goCleanL (joinRaw (e :: es') ++ '/' :: f.data)) := by
            rw [goCleanL_append _ _ hJ]
        _ = String.mk (goCleanL (joinRaw ((e :: es') ++ [f]))) := by
            rw [joinRaw_snoc f (e :: es') (by simp)]
        _ = goJoin ((e :: es') ++ [f]) := by
            rw [show (e :: es') ++ [f] = e :: (es' ++ [f]) from by simp]
            rw [goJoin_cons e (es' ++ [f]) he, goClean_mk]

theorem dot_append2_ne (a b : String) : ("." ++ a ++ b) ≠ "" := by
  intro he
  simpa using congrArg String.data he

/-- No directory-mode candidate is the empty string, so the resolver's
empty-string fallback sentinel is unambiguous. -/
theorem list_mem_ne (env : Env) (app : String) : ∀ x ∈ list env app, x ≠ "" := by
  intro x hx
  rw [list_explicit] at hx
  rcases henv : env.userHomeDir with - | home
  · by_cases hxdg : env.xdgConfigHome = ""
    · simp [henv, hxdg] at hx
    · simp only [henv, hxdg] at hx
      simp at hx
      rw [hx.2]
      exact goJoin_ne _ ⟨env.xdgConfigHome, by simp, hxdg⟩
  · by_cases hxdg : env.xdgConfigHome = ""
    · simp [henv, hxdg] at hx
      rcases hx with rfl | rfl | rfl
      · exact goJoin_ne _ ⟨".config", by simp, by decide⟩
      · exact goJoin_ne _ ⟨"lib", by simp, by decide⟩
      · exact goJoin_ne _ ⟨"." ++ app, by simp, dot_append_ne app⟩
    · simp [henv, hxdg] at hx
      rcases hx with rfl | rfl | rfl
      · exact goJoin_ne _ ⟨env.xdgConfigHome, by simp, hxdg⟩
      · exact goJoin_ne _ ⟨"lib", by simp, by decide⟩
      · exact goJoin_ne _ ⟨"." ++ app, by simp, dot_append_ne app⟩

/-- No file-mode candidate is the empty string. -/
theorem fileList_mem_ne (env : Env) (cfg : fileConfig) : ∀ x ∈ fileList env cfg, x ≠ "" := by
  intro x hx
  rw [fileList_explicit] at hx
  rcases henv : env.userHomeDir with - | home
  · by_cases hxdg : env.xdgConfigHome = ""
    · simp [henv, hxdg] at hx
    · simp only [henv, hxdg] at hx
      simp at hx
      rw [hx.2]
      exact goJoin_ne _ ⟨env.xdgConfigHome, by simp, hxdg⟩
  · by_cases hxdg : env.xdgConfigHome = ""
    · simp [henv, hxdg] at hx
      rcases hx with rfl | rfl | rfl | rfl
      · exact goJoin_ne _ ⟨".config", by simp, by decide⟩
      · exact goJoin_ne _ ⟨"lib", by simp, by decide⟩
      · exact goJoin_ne _ ⟨"." ++ cfg.App, by simp, dot_append_ne cfg.App⟩
      · exact goJoin_ne _ ⟨"." ++ cfg.App ++ goExt cfg.File, by simp,
          dot_append2_ne cfg.App (goExt cfg.File)⟩
    · simp [henv, hxdg] at hx
      rcases hx with rfl | rfl | rfl | rfl
      · exact goJoin_ne _ ⟨env.xdgConfigHome, by simp, hxdg⟩
      · exact goJoin_ne _ ⟨"lib", by simp, by decide⟩
      · exact goJoin_ne _ ⟨"." ++ cfg.App, by simp, dot_append_ne cfg.App⟩
      · exact goJoin_ne _ ⟨"." ++ cfg.App ++ goExt cfg.File, by simp,
          dot_append2_ne cfg.App (goExt cfg.File)⟩

/-! ## The claims -/

/-- C1: Dir returns the earliest candidate in the generated sequence
for which the directory predicate is true, paired with `true`; when
the sequence is non-empty and the predicate is false on every
candidate, Dir returns the first candidate ever produced paired with
`false`, never a later one. -/
theorem dir_returns_first_existing (env : Env) (app : String) :
    (∀ d, (list env app).find? env.dirExists = some d → Dir env app = (d, true)) ∧
    (∀ d ds, list env app = d :: ds →
      (∀ x ∈ list env app, env.dirExists x = false) → Dir env app = (d, false)) := by
  constructor
  · intro d hfind
    obtain ⟨fb2, hrun⟩ := runOver_dir_found env (list env app) ("") d hfind
    unfold Dir
    rw [listRun_eq_runOver, hrun]
  · intro d ds hL hall
    have hrun := runOver_dir_none env (list env app) ("") hall
    have hd : d ≠ "" := list_mem_ne env app d (by rw [hL]; simp)
    unfold Dir
    rw [listRun_eq_runOver, hrun, hL, listFallback_head d ds hd]
    simp [hd]

/-- Witness for C1 at concrete inputs: a middle candidate exists and
wins; nothing exists and the first candidate is returned with false. -/
theorem dir_returns_first_existing_w :
    Dir envLibHit ("myapp") = ("/mock/home/lib/myapp", true) ∧
    Dir envAllMiss ("myapp") = ("/mock/xdg/myapp", false) := by
  constructor
  · exact (dir_returns_first_existing envLibHit ("myapp")).1 ("/mock/home/lib/myapp")
      (by decide)
  · exact (dir_returns_first_existing envAllMiss ("myapp")).2 ("/mock/xdg/myapp")
      ["/mock/home/lib/myapp", "/mock/home/.myapp"] (by decide) (by decide)

/-- C2: File returns the earliest candidate whose tri-state check is
`FileExists`, paired with `FileExists`; when no candidate checks as
`FileExists` and the sequence is non-empty, File returns the first
candidate ever produced paired with that candidate's actual predicate
status, which is then never `FileExists`. -/
theorem file_returns_first_fileexists (env : Env) (app name : String) :
    (∀ p, (fileList env (newFileConfig app name)).find?
        (fun x => decide (env.checkFile x = fileExists.FileExists)) = some p →
      File env app name = (p, fileExists.FileExists)) ∧
    (∀ p ps, fileList env (newFileConfig app name) = p :: ps →
      (∀ x ∈ fileList env (newFileConfig app name),
        env.checkFile x ≠ fileExists.FileExists) →
      File env app name = (p, env.checkFile p) ∧
        env.checkFile p ≠ fileExists.FileExists) := by
  constructor
  · intro p hfind
    obtain ⟨fb2, hrun⟩ := runOver_file_found env (fileList env (newFileConfig app name))
      ("") p hfind
    unfold File fileResolveCfg
    rw [fileListRun_eq_runOver, hrun]
  · intro p ps hL hall
    have hrun := runOver_file_none env (fileList env (newFileConfig app name)) ("") hall
    have hp : env.checkFile p ≠ fileExists.FileExists := hall p (by rw [hL]; simp)
    have hpne : p ≠ "" := fileList_mem_ne env (newFileConfig app name) p (by rw [hL]; simp)
    unfold File fileResolveCfg
    rw [fileListRun_eq_runOver, hrun, hL, listFallback_head p ps hpne]
    exact ⟨by simp [hpne], hp⟩

/-- Witness for C2 at concrete inputs: the Plan9 lib file exists and
wins; nothing exists and the first candidate is returned with its own
status. -/
theorem file_returns_first_fileexists_w :
    File envLibHit ("myapp") ("config.yaml") =
      ("/mock/home/lib/myapp/config.yaml", fileExists.FileExists) ∧
    File envAllMiss ("myapp") ("config.yaml") =
      ("/mock/xdg/myapp/config.yaml", fileExists.NotExists) := by
  constructor
  · exact (file_returns_first_fileexists envLibHit ("myapp") ("config.yaml")).1
      ("/mock/home/lib/myapp/config.yaml") (by decide)
  · have h := ((file_returns_first_fileexists envAllMiss ("myapp") ("config.yaml")).2
      ("/mock/xdg/myapp/config.yaml")
      ["/mock/home/lib/myapp/config.yaml", "/mock/home/.myapp/config.yaml",
        "/mock/home/.myapp.yaml"]
      (by decide) (by decide)).1
    rw [h]
    decide

/-- C3: the directory-mode candidate sequence is exactly
`{xdg}/{app}` (when the XDG base is non-empty) followed by the home
candidates `{home}/lib/{app}`, `{home}/.{app}` when the home
resolves; with no XDG base it is `{home}/.config/{app}`,
`{home}/lib/{app}`, `{home}/.{app}` when the home resolves; an
unresolvable home contributes nothing. -/
theorem dir_candidate_sequence (env : Env) (app : String) :
    list env app =
      if env.xdgConfigHome ≠ "" then
        goJoin [env.xdgConfigHome, app] ::
          (match env.userHomeDir with
           | some home => [goJoin [home, "lib", app], goJoin [home, "." ++ app]]
           | none => [])
      else
        match env.userHomeDir with
        | some home =>
          [goJoin [home, ".config", app], goJoin [home, "lib", app], goJoin [home, "." ++ app]]
        | none => [] :=
  list_explicit env app

/-- C4: the file-mode candidate sequence is the directory-mode
sequence with the normalized file name joined onto every candidate,
plus exactly one extra candidate `{home}/.{app}{ext}` after the
`{home}/.{app}/{name}` variant, where `ext` is the extension of the
normalized file name. -/
theorem file_candidate_sequence (env : Env) (app name : String) :
    fileList env (newFileConfig app name) =
      (list env app).map (fun d => goJoin [d, (newFileConfig app name).File]) ++
        (match env.userHomeDir with
         | some home =>
           [goJoin [home, "." ++ app ++ goExt (newFileConfig app name).File]]
         | none => []) := by
  have hApp : (newFileConfig app name).App = app := rfl
  rw [fileList_explicit, list_explicit]
  rcases henv : env.userHomeDir with - | home
  · by_cases hxdg : env.xdgConfigHome = ""
    · simp [henv, hxdg]
    · simp only [henv, hxdg, hApp, if_true, if_neg, List.map_cons, List.map_nil,
        List.append_nil, ite_not]
      simp [hxdg]
      rw [goJoin_append_one [env.xdgConfigHome, app] (newFileConfig app name).File]
      simp [hApp]
  · by_cases hxdg : env.xdgConfigHome = ""
    · simp only [henv, hxdg, hApp]
      simp
      rw [goJoin_append_one [home, ".config", app] (newFileConfig app name).File,
        goJoin_append_one [home, "lib", app] (newFileConfig app name).File,
        goJoin_append_one [home, "." ++ app] (newFileConfig app name).File]
      simp [hApp]
    · simp only [henv, hxdg, hApp]
      simp [hxdg]
      rw [goJoin_append_one [env.xdgConfigHome, app] (newFileConfig app name).File,
        goJoin_append_one [home, "lib", app] (newFileConfig app name).File,
        goJoin_append_one [home, "." ++ app] (newFileConfig app name).File]
      simp [hApp]

/-- C5: with an empty XDG base and a failed home lookup the generator
yields nothing and Dir falls back to `.{app}` paired with the
predicate's actual result for that path (not forced to false); with a
non-empty XDG base the generator always yields at least one candidate
and the result path always comes from the sequence. -/
theorem dir_empty_generator_fallback (env : Env) (app : String) :
    (env.xdgConfigHome = "" → env.userHomeDir = none →
      Dir env app = ("." ++ app, env.dirExists ("." ++ app))) ∧
    (env.xdgConfigHome ≠ "" → list env app ≠ [] ∧ (Dir env app).1 ∈ list env app) := by
  constructor
  · intro hx hh
    have hnil : list env app = [] := by
      rw [list_explicit]
      simp [hx, hh]
    unfold Dir
    rw [listRun_eq_runOver, hnil, runOver_nil]
    simp
  · intro hx
    obtain ⟨d, ds, hL⟩ : ∃ d ds, list env app = d :: ds := by
      rw [list_explicit]
      rcases henv : env.userHomeDir with - | home
      · exact ⟨goJoin [env.xdgConfigHome, app], [], by simp [hx, henv]⟩
      · exact ⟨goJoin [env.xdgConfigHome, app],
          [goJoin [home, "lib", app], goJoin [home, "." ++ app]], by simp [hx, henv]⟩
    refine ⟨by rw [hL]; simp, ?_⟩
    rcases hfind : (list env app).find? env.dirExists with - | d0
    · have hall : ∀ x ∈ list env app, env.dirExists x = false := by
        intro x hxm
        have := List.find?_eq_none.1 hfind x hxm
        simpa using this
      have hd : d ≠ "" := list_mem_ne env app d (by rw [hL]; simp)
      have hDir : Dir env app = (d, false) := by
        unfold Dir
        rw [listRun_eq_runOver, runOver_dir_none env (list env app) ("") hall, hL,
          listFallback_head d ds hd]
        simp [hd]
      rw [hDir, hL]
      simp
    · obtain ⟨fb2, hrun⟩ := runOver_dir_found env (list env app) ("") d0 hfind
      have hDir : Dir env app = (d0, true) := by
        unfold Dir
        rw [listRun_eq_runOver, hrun]
      rw [hDir]
      simpa using List.mem_of_find?_eq_some hfind

/-- Witness for C5 at concrete inputs: the empty environment falls
back to `.myapp`; with an XDG base the result is a sequence member. -/
theorem dir_empty_generator_fallback_w :
    Dir envEmpty ("myapp") = (".myapp", false) ∧
    (Dir envAllMiss ("myapp")).1 ∈ list envAllMiss ("myapp") := by
  constructor
  · have h := (dir_empty_generator_fallback envEmpty ("myapp")).1 rfl rfl
    rw [h]
    decide
  · exact ((dir_empty_generator_fallback envAllMiss ("myapp")).2 (by decide)).2

/-- C6: when the file-mode generator yields no candidates, File first
checks `.{app}/{File}` and returns it with `FileExists` when it
exists; otherwise it returns `.{app}{ext}` — the extension re-derived
from the normalized file name — paired with whatever the predicate
reports for that path. -/
theorem file_empty_generator_fallback (env : Env) (app name : String)
    (hempty : fileList env (newFileConfig app name) = []) :
    (env.checkFile (goJoin ["." ++ app, (newFileConfig app name).File]) =
        fileExists.FileExists →
      File env app name =
        (goJoin ["." ++ app, (newFileConfig app name).File], fileExists.FileExists)) ∧
    (env.checkFile (goJoin ["." ++ app, (newFileConfig app name).File]) ≠
        fileExists.FileExists →
      File env app name =
        ("." ++ app ++ goExt (newFileConfig app name).File,
          env.checkFile ("." ++ app ++ goExt (newFileConfig app name).File))) := by
  unfold File fileResolveCfg
  rw [fileListRun_eq_runOver, hempty, runOver_nil]
  constructor
  · intro hchk
    simp [hchk]
  · intro hchk
    simp [hchk]

/-- Witness for C6 at concrete inputs: nothing exists anywhere, so
File returns `.myapp.yaml` with the predicate's status for it. -/
theorem file_empty_generator_fallback_w :
    File envEmpty ("myapp") ("config.yaml") = (".myapp.yaml", fileExists.NotExists) := by
  have h := (file_empty_generator_fallback envEmpty ("myapp") ("config.yaml")
    (by decide)).2 (by decide)
  rw [h]
  decide

/-- C7: the candidate sequences and the final results of Dir and File
are functions of the lookup outputs alone: two environments whose
lookups agree pointwise produce identical sequences and results. -/
theorem resolution_deterministic (e1 e2 : Env) (app name : String)
    (hx : e1.xdgConfigHome = e2.xdgConfigHome)
    (hh : e1.userHomeDir = e2.userHomeDir)
    (hd : ∀ p, e1.dirExists p = e2.dirExists p)
    (hc : ∀ p, e1.checkFile p = e2.checkFile p) :
    list e1 app = list e2 app ∧ Dir e1 app = Dir e2 app ∧
      fileList e1 (newFileConfig app name) = fileList e2 (newFileConfig app name) ∧
      File e1 app name = File e2 app name := by
  have he : e1 = e2 := by
    cases e1
    cases e2
    simp only [Env.mk.injEq]
    exact ⟨hx, hh, funext hd, funext hc⟩
  subst he
  exact ⟨rfl, rfl, rfl, rfl⟩

/-- Witness for C7 at a concrete environment and inputs. -/
theorem resolution_deterministic_w :
    list envAllMiss ("myapp") = list envAllMiss ("myapp") ∧
    Dir envAllMiss ("myapp") = Dir envAllMiss ("myapp") ∧
    fileList envAllMiss (newFileConfig ("myapp") ("config.yaml")) =
      fileList envAllMiss (newFileConfig ("myapp") ("config.yaml")) ∧
    File envAllMiss ("myapp") ("config.yaml") = File envAllMiss ("myapp") ("config.yaml") :=
  resolution_deterministic envAllMiss envAllMiss ("myapp") ("config.yaml") rfl rfl
    (fun _ => rfl) (fun _ => rfl)

/-- C8: requesting the sentinel names `.` and `/` behaves exactly like
requesting a file literally named after the application: the
normalizer substitutes the application name, so File resolves the
configuration whose effective file name is `app` itself. -/
theorem sentinel_filename (env : Env) (app : String) :
    File env app (".") = fileResolveCfg env app { App := app, File := app } ∧
    File env app ("/") = fileResolveCfg env app { App := app, File := app } := by
  have hdot : newFileConfig app (".") = { App := app, File := app } := by
    unfold newFileConfig
    rw [show goBase (".") = "." from rfl]
    simp
  have hslash : newFileConfig app ("/") = { App := app, File := app } := by
    unfold newFileConfig
    rw [show goBase ("/") = "/" from rfl]
    simp
  constructor
  · unfold File
    rw [hdot]
  · unfold File
    rw [hslash]

/-- C9: the generators stop at the first candidate a consumer
declines: the candidates handed to any stateful consumer form exactly
the prefix of the realized sequence up to and including the first
declined one, and a consumer that declines the first candidate sees
exactly one candidate. -/
theorem generator_early_termination (env : Env) (app : String) (cfg : fileConfig)
    {σ : Type} (yield : σ → String → σ × Bool) (s : σ) :
    dirTrace env app yield s = takeUntilStop yield s (list env app) ∧
    fileTrace env cfg yield s = takeUntilStop yield s (fileList env cfg) ∧
    (∀ p ps, list env app = p :: ps → (yield s p).2 = false →
      dirTrace env app yield s = [p]) ∧
    (∀ p ps, fileList env cfg = p :: ps → (yield s p).2 = false →
      fileTrace env cfg yield s = [p]) := by
  have key : ∀ (L : List String) (tr : List String) (s0 : σ),
      (runOver (traceYield yield) (tr, s0) L).1 = tr ++ takeUntilStop yield s0 L := by
    intro L
    induction L with
    | nil => intro tr s0; simp [runOver_nil, takeUntilStop]
    | cons p ps ih =>
      intro tr s0
      rw [runOver_cons]
      rcases hy : yield s0 p with ⟨s1, b⟩
      cases b
      · simp [traceYield, hy, takeUntilStop]
      · simp [traceYield, hy, takeUntilStop, ih]
  have hdir : dirTrace env app yield s = takeUntilStop yield s (list env app) := by
    unfold dirTrace
    rw [listRun_eq_runOver]
    simpa using key (list env app) [] s
  have hfile : fileTrace env cfg yield s = takeUntilStop yield s (fileList env cfg) := by
    unfold fileTrace
    rw [fileListRun_eq_runOver]
    simpa using key (fileList env cfg) [] s
  refine ⟨hdir, hfile, ?_, ?_⟩
  · intro p ps hL hdec
    rw [hdir, hL]
    rcases hy : yield s p with ⟨s1, b⟩
    rw [hy] at hdec
    simp only at hdec
    subst hdec
    simp [takeUntilStop, hy]
  · intro p ps hL hdec
    rw [hfile, hL]
    rcases hy : yield s p with ⟨s1, b⟩
    rw [hy] at hdec
    simp only at hdec
    subst hdec
    simp [takeUntilStop, hy]

/-- Witness for C9 at concrete inputs: a consumer that declines the
first candidate sees exactly the first candidate. -/
theorem generator_early_termination_w :
    dirTrace envAllMiss ("myapp") (fun _ _ => ((), false)) () = ["/mock/xdg/myapp"] := by
  have h := (generator_early_termination envAllMiss ("myapp")
    (newFileConfig ("myapp") ("config.yaml")) (fun _ _ => ((), false)) ()).2.2.1
  exact h ("/mock/xdg/myapp") ["/mock/home/lib/myapp", "/mock/home/.myapp"] (by decide) rfl

/-- C10: the empty string is a third sentinel at the public interface:
`filepath.Base` reduces it to `.`, so File with an empty name behaves
exactly like File with the documented sentinel `.`, that is, like
requesting a file literally named after the application. -/
theorem empty_name_sentinel (env : Env) (app : String) :
    File env app ("") = File env app (".") ∧
    File env app ("") = fileResolveCfg env app { App := app, File := app } ∧
    goBase ("") = "." := by
  have hdot : newFileConfig app (".") = { App := app, File := app } := by
    unfold newFileConfig
    rw [show goBase (".") = "." from rfl]
    simp
  have hempty : newFileConfig app ("") = { App := app, File := app } := by
    unfold newFileConfig
    rw [show goBase ("") = "." from rfl]
    simp
  refine ⟨?_, ?_, rfl⟩
  · unfold File
    rw [hempty, hdot]
  · unfold File
    rw [hempty]
